import Mathlib

/-!
Verification development for the protextinator text-state core.

Rust strings are modelled as `List Char` (a list of Unicode scalar values);
byte offsets are computed through the UTF-8 width of each scalar, so all
byte-offset arithmetic of the source is reproduced exactly.  `f32` values of
the scroll code are modelled as exact rationals.  The external shaping engine
(cosmic-text) is kept abstract: its cursor-motion primitive is a parameter.
-/

namespace Protextinator

/-- UTF-8 width of a Unicode scalar value, as Rust's `char::len_utf8`. -/
def lenUtf8 (c : Char) : Nat :=
  if c.toNat < 0x80 then 1
  else if c.toNat < 0x800 then 2
  else if c.toNat < 0x10000 then 3
  else 4

theorem lenUtf8_pos (c : Char) : 0 < lenUtf8 c := by
  unfold lenUtf8; split <;> [simp; split <;> [simp; split <;> simp]]

/-- Rust `str::len`: byte length of the UTF-8 encoding. -/
def byteLen : List Char → Nat
  | [] => 0
  | c :: rest => lenUtf8 c + byteLen rest

theorem byteLen_append (a b : List Char) :
    byteLen (a ++ b) = byteLen a + byteLen b := by
  induction a with
  | nil => simp [byteLen]
  | cons c rest ih => simp [byteLen, ih]; omega

/-- Chars of `t` fully contained in the first `n` bytes (Rust `&t[..n]` at a
char boundary; at a non-boundary Rust panics, this model truncates). -/
def takeBytes : List Char → Nat → List Char
  | [], _ => []
  | c :: rest, n => if lenUtf8 c ≤ n then c :: takeBytes rest (n - lenUtf8 c) else []

/-- Chars of `t` after the first `n` bytes (Rust `&t[n..]` at a boundary). -/
def dropBytes : List Char → Nat → List Char
  | [], _ => []
  | c :: rest, n => if lenUtf8 c ≤ n then dropBytes rest (n - lenUtf8 c) else c :: rest

theorem takeBytes_byteLen (t : List Char) : takeBytes t (byteLen t) = t := by
  induction t with
  | nil => rfl
  | cons c rest ih =>
      have h := lenUtf8_pos c
      simp only [takeBytes, byteLen]
      rw [if_pos (by omega)]
      simpa using ih

theorem takeBytes_zero (t : List Char) : takeBytes t 0 = [] := by
  cases t with
  | nil => rfl
  | cons c rest =>
      have h := lenUtf8_pos c
      simp only [takeBytes]
      rw [if_neg (by omega)]

theorem dropBytes_zero (t : List Char) : dropBytes t 0 = t := by
  cases t with
  | nil => rfl
  | cons c rest =>
      have h := lenUtf8_pos c
      simp only [dropBytes]
      rw [if_neg (by omega)]

/-- Rust `str::char_indices`, started at byte position `base`. -/
def charIndicesFrom (base : Nat) : List Char → List (Nat × Char)
  | [] => []
  | c :: rest => (base, c) :: charIndicesFrom (base + lenUtf8 c) rest

/-- Rust `str::char_indices`. -/
def charIndices (t : List Char) : List (Nat × Char) := charIndicesFrom 0 t

/-- Rust `str::is_char_boundary`: `off` is 0, the total length, or the start
of some scalar value. -/
def isCharBoundary : List Char → Nat → Bool
  | _, 0 => true
  | [], _ + 1 => false
  | c :: rest, n + 1 =>
      if lenUtf8 c ≤ n + 1 then isCharBoundary rest (n + 1 - lenUtf8 c) else false

theorem isCharBoundary_le {t : List Char} {o : Nat}
    (h : isCharBoundary t o = true) : o ≤ byteLen t := by
  induction t generalizing o with
  | nil =>
      cases o with
      | zero => simp [byteLen]
      | succ n => simp [isCharBoundary] at h
  | cons c rest ih =>
      cases o with
      | zero => omega
      | succ n =>
          simp only [isCharBoundary] at h
          split at h
          · have := ih h
            simp only [byteLen]
            omega
          · exact absurd h (by simp)

/-! ### Rust `str::lines` -/

/-- Rust `str::split_inclusive('\n')`: segments, each ending with `'\n'`
except possibly the last; no trailing empty segment. -/
def splitInclusiveNl : List Char → List (List Char)
  | [] => []
  | c :: rest =>
      if c = '\n' then [c] :: splitInclusiveNl rest
      else
        match splitInclusiveNl rest with
        | [] => [[c]]
        | seg :: segs => (c :: seg) :: segs

/-- The per-line map of Rust `str::lines`: strip one trailing `'\n'`, and a
trailing `'\r'` only when a `'\n'` was stripped. -/
def stripLineEnding (l : List Char) : List Char :=
  if l.getLast? = some '\n' then
    if l.dropLast.getLast? = some '\r' then l.dropLast.dropLast else l.dropLast
  else l

/-- Rust `str::lines`. -/
def linesOf (t : List Char) : List (List Char) :=
  (splitInclusiveNl t).map stripLineEnding

/-- Concatenation of the segments. -/
def joinL : List (List Char) → List Char
  | [] => []
  | s :: rest => s ++ joinL rest

theorem splitInclusiveNl_eq_nil {t : List Char}
    (h : splitInclusiveNl t = []) : t = [] := by
  cases t with
  | nil => rfl
  | cons c rest =>
      simp only [splitInclusiveNl] at h
      split at h
      · simp at h
      · split at h <;> simp_all

theorem joinL_splitInclusiveNl (t : List Char) :
    joinL (splitInclusiveNl t) = t := by
  induction t with
  | nil => rfl
  | cons c rest ih =>
      simp only [splitInclusiveNl]
      split
      · rename_i hc
        simp [joinL, hc, ih]
      · rename_i hc
        cases hs : splitInclusiveNl rest with
        | nil =>
            have : rest = [] := splitInclusiveNl_eq_nil hs
            simp [joinL, this]
        | cons seg segs =>
            rw [hs] at ih
            simp only [joinL] at ih ⊢
            simp [ih]

theorem mem_splitInclusiveNl_ne_nil {t : List Char} {s : List Char}
    (h : s ∈ splitInclusiveNl t) : s ≠ [] := by
  induction t generalizing s with
  | nil => simp [splitInclusiveNl] at h
  | cons c rest ih =>
      simp only [splitInclusiveNl] at h
      split at h
      · rcases List.mem_cons.mp h with h1 | h2
        · subst h1; simp
        · exact ih h2
      · revert h
        split
        · intro h; rcases List.mem_cons.mp h with h1 | h2
          · subst h1; simp
          · simp at h2
        · rename_i seg segs hs
          intro h
          rcases List.mem_cons.mp h with h1 | h2
          · subst h1; simp
          · exact ih (hs ▸ List.mem_cons_of_mem _ h2)

/-- All segments except possibly the last end with `'\n'`. -/
def SegsOk : List (List Char) → Prop
  | [] => True
  | [_] => True
  | s :: t :: rest => s.getLast? = some '\n' ∧ SegsOk (t :: rest)

theorem segsOk_splitInclusiveNl (t : List Char) : SegsOk (splitInclusiveNl t) := by
  induction t with
  | nil => trivial
  | cons c rest ih =>
      simp only [splitInclusiveNl]
      split
      · rename_i hc
        cases hs : splitInclusiveNl rest with
        | nil => trivial
        | cons seg segs =>
            rw [hs] at ih
            exact ⟨by simp [hc], ih⟩
      · cases hs : splitInclusiveNl rest with
        | nil => trivial
        | cons seg segs =>
            rw [hs] at ih
            cases segs with
            | nil => trivial
            | cons t2 rest2 =>
                have hseg : seg ≠ [] :=
                  mem_splitInclusiveNl_ne_nil (hs ▸ List.mem_cons_self _ _)
                obtain ⟨x, xs, rfl⟩ := List.exists_cons_of_ne_nil hseg
                exact ⟨by rw [List.getLast?_cons_cons]; exact ih.1, ih.2⟩

/-! ### `src/byte_cursor.rs` -/

/-- cosmic-text `Affinity`; `Default` is `Before`. -/
inductive Affinity
  | before
  | after
deriving DecidableEq, Repr

/-- cosmic-text `Cursor`: line index, intra-line byte index, affinity. -/
structure Cursor where
  line : Nat
  index : Nat
  affinity : Affinity
deriving DecidableEq, Repr

/-- The derived lexicographic order on cosmic-text `Cursor`
(line, then index, then affinity with `Before < After`). -/
def Affinity.toNat : Affinity → Nat
  | .before => 0
  | .after => 1

def Cursor.lt (a b : Cursor) : Bool :=
  Nat.blt a.line b.line ||
    (a.line == b.line &&
      (Nat.blt a.index b.index ||
        (a.index == b.index && Nat.blt a.affinity.toNat b.affinity.toNat)))

/-- `ByteCursor`: an engine cursor paired with the byte offset of the same
position. -/
structure ByteCursor where
  cursor : Cursor
  byte_character_start : Nat
deriving DecidableEq, Repr

/-- The derived lexicographic order on `ByteCursor` (cursor, then offset). -/
def ByteCursor.lt (a b : ByteCursor) : Bool :=
  Cursor.lt a.cursor b.cursor ||
    (a.cursor == b.cursor && Nat.blt a.byte_character_start b.byte_character_start)

/-- Loop of `byte_offset_cursor_to_byte_offset`: walk the lines with a running
line number and cumulative byte offset (each separator counted as 1 byte). -/
def cursorOffsetLoop : List (List Char) → Nat → Nat → Nat → Nat → Option Nat
  | [], _, _, _, _ => none
  | l :: rest, cLine, cIdx, lineNo, acc =>
      if lineNo = cLine then
        if cIdx ≤ byteLen l then some (acc + cIdx) else none
      else cursorOffsetLoop rest cLine cIdx (lineNo + 1) (acc + byteLen l + 1)

/-- `byte_offset_cursor_to_byte_offset(string, cursor)`. -/
def byte_offset_cursor_to_byte_offset (t : List Char) (c : Cursor) : Option Nat :=
  cursorOffsetLoop (linesOf t) c.line c.index 0 0

/-- Loop of `char_byte_offset_to_cursor`: find the first line whose byte span
strictly contains the offset; the index is `offset - cumulative`
(`saturating_sub`, which on `Nat` is plain subtraction). -/
def offsetCursorLoop : List (List Char) → Nat → Nat → Nat → Option (Nat × Nat)
  | [], _, _, _ => none
  | l :: rest, off, lineNo, acc =>
      if off < acc + byteLen l then some (lineNo, off - acc)
      else offsetCursorLoop rest off (lineNo + 1) (acc + byteLen l + 1)

/-- Fold computing `last_line_number` / `last_line_len` of
`char_byte_offset_to_cursor`'s special case (both start at 0). -/
def lastLineInfo : List (List Char) → Nat → Nat × Nat → Nat × Nat
  | [], _, cur => cur
  | l :: rest, lineNo, _ => lastLineInfo rest (lineNo + 1) (lineNo, byteLen l)

/-- `char_byte_offset_to_cursor(full_text, char_byte_offset)`. -/
def char_byte_offset_to_cursor (t : List Char) (off : Nat) : Option Cursor :=
  if off = byteLen t then
    let li := lastLineInfo (linesOf t) 0 (0, 0)
    some ⟨li.1, li.2, .before⟩
  else
    match offsetCursorLoop (linesOf t) off 0 0 with
    | some li => some ⟨li.1, li.2, .before⟩
    | none => none

/-- Loop of `char_byte_offset_to_char_index` over `char_indices().enumerate()`. -/
def charIndexLoop : List (Nat × Char) → Nat → Nat → Option Nat
  | [], _, _ => none
  | (b, _) :: rest, off, ci =>
      if b = off then some ci
      else if off < b then none
      else charIndexLoop rest off (ci + 1)

/-- `char_byte_offset_to_char_index(text, char_byte_offset)`. -/
def char_byte_offset_to_char_index (t : List Char) (off : Nat) : Option Nat :=
  if byteLen t < off then none
  else if off = byteLen t then some t.length
  else charIndexLoop (charIndices t) off 0

/-- `previous_char_byte_offset(text, current)`. -/
def previous_char_byte_offset (t : List Char) (current : Nat) : Option Nat :=
  if current = 0 then none
  else if byteLen t < current then none
  else ((charIndices (takeBytes t current)).getLast?).map Prod.fst

namespace ByteCursor

/-- `ByteCursor::string_start()`. -/
def string_start : ByteCursor := ⟨⟨0, 0, .before⟩, 0⟩

/-- `ByteCursor::before_last_character(string)`.  The two `expect`s of the
source are modelled by a `string_start` fallback (the source would panic). -/
def before_last_character (t : List Char) : ByteCursor :=
  if t = [] then string_start
  else
    match (charIndices t).getLast? with
    | none => string_start
    | some (off, _) =>
        match char_byte_offset_to_cursor t off with
        | some c => ⟨c, off⟩
        | none => string_start

/-- `ByteCursor::after_last_character(string)`. -/
def after_last_character (t : List Char) : ByteCursor :=
  let res := before_last_character t
  ⟨⟨res.cursor.line, res.cursor.index, .after⟩, byteLen t⟩

/-- `ByteCursor::update_cursor(&mut self, cursor, string)`; the mutated cursor
is returned alongside the `bool`. -/
def update_cursor (bc : ByteCursor) (c : Cursor) (t : List Char) : Bool × ByteCursor :=
  if c = bc.cursor then (true, bc)
  else
    match byte_offset_cursor_to_byte_offset t c with
    | some off => (true, ⟨c, off⟩)
    | none => (false, bc)

/-- `ByteCursor::update_byte_offset(&mut self, byte_offset, string)`. -/
def update_byte_offset (bc : ByteCursor) (off : Nat) (t : List Char) : Bool × ByteCursor :=
  if bc.byte_character_start = off then (true, bc)
  else
    match char_byte_offset_to_cursor t off with
    | some c => (true, ⟨c, off⟩)
    | none => (false, bc)

/-- `ByteCursor::from_cursor(cursor, string)`. -/
def from_cursor (c : Cursor) (t : List Char) : Option ByteCursor :=
  let r := string_start.update_cursor c t
  if r.1 then some r.2 else none

/-- `ByteCursor::from_byte_offset(byte_offset, string)`. -/
def from_byte_offset (off : Nat) (t : List Char) : Option ByteCursor :=
  let r := string_start.update_byte_offset off t
  if r.1 then some r.2 else none

/-- `ByteCursor::char_index(&self, string)`. -/
def char_index (bc : ByteCursor) (t : List Char) : Option Nat :=
  char_byte_offset_to_char_index t bc.byte_character_start

/-- `ByteCursor::prev_char_byte_offset(&self, string)`. -/
def prev_char_byte_offset (bc : ByteCursor) (t : List Char) : Option Nat :=
  previous_char_byte_offset t bc.byte_character_start

end ByteCursor


/-! ### Loop lemmas for the cursor/offset conversions -/

theorem cursorOffsetLoop_some_line_ge {ls : List (List Char)}
    {cLine cIdx lineNo acc o : Nat}
    (h : cursorOffsetLoop ls cLine cIdx lineNo acc = some o) : lineNo ≤ cLine := by
  induction ls generalizing lineNo acc with
  | nil => simp [cursorOffsetLoop] at h
  | cons l rest ih =>
      simp only [cursorOffsetLoop] at h
      split at h
      · omega
      · have := ih h
        omega

theorem cursorOffsetLoop_some_acc_le {ls : List (List Char)}
    {cLine cIdx lineNo acc o : Nat}
    (h : cursorOffsetLoop ls cLine cIdx lineNo acc = some o) : acc ≤ o := by
  induction ls generalizing lineNo acc with
  | nil => simp [cursorOffsetLoop] at h
  | cons l rest ih =>
      simp only [cursorOffsetLoop] at h
      split at h
      · split at h
        · simp only [Option.some.injEq] at h
          omega
        · simp at h
      · have := ih h
        omega

/-- Round trip at the loop level: an accepted cursor whose index is strictly
inside its line is recovered exactly by the offset-to-cursor loop. -/
theorem cursorOffsetLoop_round_trip {ls : List (List Char)}
    {cLine cIdx lineNo acc o : Nat} {l0 : List Char}
    (h : cursorOffsetLoop ls cLine cIdx lineNo acc = some o)
    (hget : ls.get? (cLine - lineNo) = some l0)
    (hlt : cIdx < byteLen l0) :
    offsetCursorLoop ls o lineNo acc = some (cLine, cIdx) := by
  induction ls generalizing lineNo acc with
  | nil => simp [cursorOffsetLoop] at h
  | cons l rest ih =>
      simp only [cursorOffsetLoop] at h
      by_cases he : lineNo = cLine
      · rw [if_pos he] at h
        by_cases hc : cIdx ≤ byteLen l
        · rw [if_pos hc] at h
          have ho : acc + cIdx = o := Option.some.inj h
          subst he
          rw [Nat.sub_self] at hget
          have hl : l = l0 := by simpa using hget
          have hcond : o < acc + byteLen l := by rw [hl]; omega
          simp only [offsetCursorLoop]
          rw [if_pos hcond]
          simp only [Option.some.injEq, Prod.mk.injEq, true_and]
          omega
        · rw [if_neg hc] at h
          simp at h
      · rw [if_neg he] at h
        have hge : lineNo ≤ cLine := by
          have := cursorOffsetLoop_some_line_ge h
          omega
        have hgt : lineNo < cLine := by omega
        have hget' : rest.get? (cLine - (lineNo + 1)) = some l0 := by
          have hsub : cLine - lineNo = (cLine - (lineNo + 1)) + 1 := by omega
          rw [hsub] at hget
          simpa using hget
        have hacc : acc + byteLen l + 1 ≤ o := cursorOffsetLoop_some_acc_le h
        have hcond : ¬ (o < acc + byteLen l) := by omega
        simp only [offsetCursorLoop]
        rw [if_neg hcond]
        exact ih h hget'

theorem byteLen_dropLast_le (l : List Char) : byteLen l.dropLast ≤ byteLen l := by
  induction l with
  | nil => simp
  | cons c rest ih =>
      cases rest with
      | nil => simp [byteLen]
      | cons d rs =>
          rw [List.dropLast_cons₂]
          simp only [byteLen] at *
          omega

theorem byteLen_strip_le (l : List Char) :
    byteLen (stripLineEnding l) ≤ byteLen l := by
  unfold stripLineEnding
  split
  · split
    · calc byteLen l.dropLast.dropLast ≤ byteLen l.dropLast := byteLen_dropLast_le _
        _ ≤ byteLen l := byteLen_dropLast_le _
    · exact byteLen_dropLast_le l
  · omega

theorem byteLen_strip_lt {l : List Char} (h : l.getLast? = some '\n') :
    byteLen (stripLineEnding l) + 1 ≤ byteLen l := by
  have hsplit : l.dropLast ++ ['\n'] = l := List.dropLast_append_getLast? '\n' h
  have hlen : byteLen l = byteLen l.dropLast + 1 := by
    conv_lhs => rw [← hsplit]
    rw [byteLen_append]
    have h1 : lenUtf8 '\n' = 1 := by decide
    simp [byteLen, h1]
  unfold stripLineEnding
  rw [if_pos h]
  split
  · have := byteLen_dropLast_le l.dropLast
    omega
  · omega

/-- An accepted cursor's byte offset together with the byte length of its line
is bounded by the cumulative start plus the byte length of the whole text
(segments before the cursor line each contribute at least their stripped
length plus one separator byte). -/
theorem cursorOffsetLoop_accept_bound {segs : List (List Char)}
    {cLine cIdx lineNo acc o : Nat} {l0 : List Char}
    (hok : SegsOk segs)
    (h : cursorOffsetLoop (segs.map stripLineEnding) cLine cIdx lineNo acc = some o)
    (hget : (segs.map stripLineEnding).get? (cLine - lineNo) = some l0) :
    o + byteLen l0 ≤ acc + byteLen (joinL segs) + cIdx := by
  induction segs generalizing lineNo acc with
  | nil => simp [cursorOffsetLoop] at h
  | cons s rest ih =>
      simp only [List.map_cons, cursorOffsetLoop] at h
      by_cases he : lineNo = cLine
      · rw [if_pos he] at h
        split at h
        · simp only [Option.some.injEq] at h
          subst he
          simp only [Nat.sub_self, List.map_cons, List.get?] at hget
          cases hget
          have h1 : byteLen (stripLineEnding s) ≤ byteLen s := byteLen_strip_le s
          have h2 : byteLen (joinL (s :: rest)) = byteLen s + byteLen (joinL rest) := by
            simp [joinL, byteLen_append]
          omega
        · simp at h
      · rw [if_neg he] at h
        have hge : lineNo ≤ cLine := by
          have := cursorOffsetLoop_some_line_ge h
          omega
        have hget' : (rest.map stripLineEnding).get? (cLine - (lineNo + 1)) = some l0 := by
          have hsub : cLine - lineNo = (cLine - (lineNo + 1)) + 1 := by omega
          rw [hsub] at hget
          simpa using hget
        have hrne : rest ≠ [] := by
          intro hr
          rw [hr] at h
          simp [cursorOffsetLoop] at h
        obtain ⟨r1, rrest, rfl⟩ := List.exists_cons_of_ne_nil hrne
        have hlast : s.getLast? = some '\n' := hok.1
        have hstrip : byteLen (stripLineEnding s) + 1 ≤ byteLen s := byteLen_strip_lt hlast
        have := ih hok.2 h hget'
        have h2 : byteLen (joinL (s :: r1 :: rrest)) =
            byteLen s + byteLen (joinL (r1 :: rrest)) := by
          simp [joinL, byteLen_append]
        omega

/-- Offsets at least one past the total byte length are never matched by the
offset-to-cursor loop. -/
theorem offsetCursorLoop_none_of_big {segs : List (List Char)}
    {off lineNo acc : Nat}
    (hok : SegsOk segs)
    (hbig : acc + byteLen (joinL segs) + 1 ≤ off) :
    offsetCursorLoop (segs.map stripLineEnding) off lineNo acc = none := by
  induction segs generalizing lineNo acc with
  | nil => simp [offsetCursorLoop]
  | cons s rest ih =>
      simp only [List.map_cons, offsetCursorLoop]
      have hj : byteLen (joinL (s :: rest)) = byteLen s + byteLen (joinL rest) := by
        simp [joinL, byteLen_append]
      have h1 : byteLen (stripLineEnding s) ≤ byteLen s := byteLen_strip_le s
      rw [if_neg (by omega)]
      cases rest with
      | nil => simp [offsetCursorLoop]
      | cons r1 rrest =>
          have hlast : s.getLast? = some '\n' := hok.1
          have hstrip : byteLen (stripLineEnding s) + 1 ≤ byteLen s := byteLen_strip_lt hlast
          have hj2 : byteLen (joinL (s :: r1 :: rrest)) =
              byteLen s + byteLen (joinL (r1 :: rrest)) := by
            simp [joinL, byteLen_append]
          exact ih hok.2 (by omega)

/-- Characterization of rejection by the cursor-to-offset loop: the cursor's
line is past the line list, or its index exceeds its line's byte length. -/
theorem cursorOffsetLoop_none_iff {ls : List (List Char)}
    {cLine cIdx lineNo acc : Nat} (hge : lineNo ≤ cLine) :
    cursorOffsetLoop ls cLine cIdx lineNo acc = none ↔
      (ls.get? (cLine - lineNo) = none ∨
        ∃ l0, ls.get? (cLine - lineNo) = some l0 ∧ byteLen l0 < cIdx) := by
  induction ls generalizing lineNo acc with
  | nil => simp [cursorOffsetLoop]
  | cons l rest ih =>
      simp only [cursorOffsetLoop]
      by_cases he : lineNo = cLine
      · rw [if_pos he]
        subst he
        simp only [Nat.sub_self, List.get?]
        constructor
        · intro h
          split at h
          · simp at h
          · exact Or.inr ⟨l, rfl, by omega⟩
        · rintro (h | ⟨l0, hl0, hlt⟩)
          · simp at h
          · cases hl0
            rw [if_neg (by omega)]
      · rw [if_neg he]
        have hsub : cLine - lineNo = (cLine - (lineNo + 1)) + 1 := by omega
        rw [hsub]
        simpa using ih (by omega)

/-! ### Top-level facts about the conversions -/

theorem byteLen_joinL_split (t : List Char) :
    byteLen (joinL (splitInclusiveNl t)) = byteLen t := by
  rw [joinL_splitInclusiveNl]

/-- An accepted cursor pointing strictly inside its line has an offset
strictly below the total byte length. -/
theorem accept_offset_lt {t : List Char} {c : Cursor} {o : Nat} {l0 : List Char}
    (h : byte_offset_cursor_to_byte_offset t c = some o)
    (hget : (linesOf t).get? c.line = some l0)
    (hlt : c.index < byteLen l0) : o < byteLen t := by
  have h' : cursorOffsetLoop ((splitInclusiveNl t).map stripLineEnding)
      c.line c.index 0 0 = some o := h
  have hget' : ((splitInclusiveNl t).map stripLineEnding).get? (c.line - 0) = some l0 := by
    simpa [linesOf] using hget
  have hb := cursorOffsetLoop_accept_bound (segsOk_splitInclusiveNl t) h' hget'
  have hj := byteLen_joinL_split t
  omega

theorem offToCursor_none_of_gt {t : List Char} {o : Nat}
    (h : byteLen t < o) : char_byte_offset_to_cursor t o = none := by
  unfold char_byte_offset_to_cursor
  rw [if_neg (by omega)]
  have hn : offsetCursorLoop ((splitInclusiveNl t).map stripLineEnding) o 0 0 = none := by
    apply offsetCursorLoop_none_of_big (segsOk_splitInclusiveNl t)
    have := byteLen_joinL_split t
    omega
  have hn' : offsetCursorLoop (linesOf t) o 0 0 = none := hn
  rw [hn']

theorem from_byte_offset_byte {t : List Char} {o : Nat} {bc : ByteCursor}
    (h : ByteCursor.from_byte_offset o t = some bc) :
    bc.byte_character_start = o := by
  unfold ByteCursor.from_byte_offset ByteCursor.update_byte_offset at h
  by_cases h0 : ByteCursor.string_start.byte_character_start = o
  · rw [if_pos h0] at h
    simp only [if_pos] at h
    cases h
    exact h0
  · rw [if_neg h0] at h
    cases hc : char_byte_offset_to_cursor t o with
    | none => rw [hc] at h; simp at h
    | some c =>
        rw [hc] at h
        simp only [if_pos] at h
        cases h
        rfl

/-- **C4** — corrected.  The round trip `engine cursor -> byte offset ->
engine cursor` recovers the original cursor for every accepted cursor with
default (`Before`) affinity that either points strictly inside its line, or is
the end-of-text cursor (last line, last line length) whose byte offset equals
the text's byte length.  (As stated in the spec the claim fails: a cursor
sitting at the end of a non-final line comes back as the start of the next
line — see the counterexample.) -/
theorem C4_cursor_byte_offset_round_trip (t : List Char) (c : Cursor) (o : Nat)
    (h : byte_offset_cursor_to_byte_offset t c = some o)
    (haff : c.affinity = .before)
    (hcase : (∃ l0, (linesOf t).get? c.line = some l0 ∧ c.index < byteLen l0) ∨
      (o = byteLen t ∧ lastLineInfo (linesOf t) 0 (0, 0) = (c.line, c.index))) :
    char_byte_offset_to_cursor t o = some c := by
  rcases hcase with ⟨l0, hget, hlt⟩ | ⟨ho, hlast⟩
  · have hne : o < byteLen t := accept_offset_lt h hget hlt
    unfold char_byte_offset_to_cursor
    rw [if_neg (by omega)]
    have hloop : offsetCursorLoop (linesOf t) o 0 0 = some (c.line, c.index) := by
      apply cursorOffsetLoop_round_trip h _ hlt
      simpa using hget
    rw [hloop]
    cases c with
    | mk cl ci ca =>
        cases haff
        rfl
  · unfold char_byte_offset_to_cursor
    rw [if_pos ho, hlast]
    cases c with
    | mk cl ci ca =>
        cases haff
        rfl

/-- **C4** — counterexample to the claim as stated: on `"a\nb"` the cursor
`(line 0, index 1)` — the end of the first line — is accepted with byte offset
1, but converting offset 1 back yields `(line 1, index 0)`, not the original
cursor. -/
theorem C4_counterexample :
    byte_offset_cursor_to_byte_offset ['a', '\n', 'b'] ⟨0, 1, .before⟩ = some 1 ∧
      char_byte_offset_to_cursor ['a', '\n', 'b'] 1 = some ⟨1, 0, .before⟩ ∧
      (⟨1, 0, .before⟩ : Cursor) ≠ ⟨0, 1, .before⟩ := by
  refine ⟨by decide, by decide, by decide⟩

/-- **C4** — witness: the amended round trip at a concrete input. -/
theorem C4_witness :
    char_byte_offset_to_cursor ['a', '\n', 'b'] 0 = some ⟨0, 0, .before⟩ :=
  C4_cursor_byte_offset_round_trip ['a', '\n', 'b'] ⟨0, 0, .before⟩ 0
    (by decide) rfl (Or.inl ⟨['a'], by decide, by decide⟩)

/-- **C5** — corrected.  Offsets strictly past the end of the text are
rejected: `from_byte_offset` returns `None`, and `update_byte_offset` (when
the offset differs from the cursor's current one) returns `false` leaving the
cursor unchanged.  An engine cursor is rejected by the conversion exactly when
its line is past the line list or its index exceeds its line's byte length,
and `from_cursor` returns `None` for every rejected cursor other than the
string-start cursor (which is accepted without validation).  (The claim's
stronger statement — that every offset not on a character boundary is
rejected — fails: mid-codepoint offsets inside a line are accepted, see the
counterexample.) -/
theorem C5_invalid_positions_rejected (t : List Char) (o : Nat)
    (bc : ByteCursor) (c : Cursor) :
    (byteLen t < o → ByteCursor.from_byte_offset o t = none) ∧
      (byteLen t < o → bc.byte_character_start ≠ o →
        bc.update_byte_offset o t = (false, bc)) ∧
      (byte_offset_cursor_to_byte_offset t c = none → c ≠ ⟨0, 0, .before⟩ →
        ByteCursor.from_cursor c t = none) ∧
      (byte_offset_cursor_to_byte_offset t c = none ↔
        ((linesOf t).get? c.line = none ∨
          ∃ l0, (linesOf t).get? c.line = some l0 ∧ byteLen l0 < c.index)) := by
  refine ⟨?_, ?_, ?_, ?_⟩
  · intro h
    have h0 : ¬ (ByteCursor.string_start.byte_character_start = o) := by
      simp only [ByteCursor.string_start]
      omega
    have hc := offToCursor_none_of_gt h
    have hupd : ByteCursor.string_start.update_byte_offset o t =
        (false, ByteCursor.string_start) := by
      simp only [ByteCursor.update_byte_offset]
      rw [if_neg h0, hc]
    simp [ByteCursor.from_byte_offset, hupd]
  · intro h hne
    have hc := offToCursor_none_of_gt h
    simp only [ByteCursor.update_byte_offset]
    rw [if_neg hne, hc]
  · intro h hne
    have hne' : ¬ (c = ByteCursor.string_start.cursor) := by
      simpa [ByteCursor.string_start] using hne
    have hupd : ByteCursor.string_start.update_cursor c t =
        (false, ByteCursor.string_start) := by
      simp only [ByteCursor.update_cursor]
      rw [if_neg hne', h]
    simp [ByteCursor.from_cursor, hupd]
  · have := @cursorOffsetLoop_none_iff (linesOf t) c.line c.index 0 0 (by omega)
    simpa [byte_offset_cursor_to_byte_offset] using this

/-- **C5** — counterexample to the claim as stated: byte offset 1 lands in the
middle of the 2-byte scalar `'é'`, yet `from_byte_offset` accepts it. -/
theorem C5_counterexample :
    isCharBoundary ['é'] 1 = false ∧
      ByteCursor.from_byte_offset 1 ['é'] = some ⟨⟨0, 1, .before⟩, 1⟩ := by
  refine ⟨by decide, by decide⟩

/-- **C5** — witness: rejection of an out-of-range offset at a concrete
input. -/
theorem C5_witness : ByteCursor.from_byte_offset 5 ['a'] = none :=
  (C5_invalid_positions_rejected ['a'] 5 ByteCursor.string_start
    ⟨0, 0, .before⟩).1 (by decide)

/-! ### Char-index correctness at boundaries -/

theorem charIndexLoop_boundary (t : List Char) :
    ∀ (off base ci : Nat), off < byteLen t → isCharBoundary t off = true →
      charIndexLoop (charIndicesFrom base t) (base + off) ci =
        some (ci + (takeBytes t off).length) := by
  induction t with
  | nil =>
      intro off base ci hlt _
      simp [byteLen] at hlt
  | cons c rest ih =>
      intro off base ci hlt hb
      cases off with
      | zero =>
          simp [charIndicesFrom, charIndexLoop, takeBytes_zero]
      | succ n =>
          simp only [isCharBoundary] at hb
          have hcb : lenUtf8 c ≤ n + 1 ∧ isCharBoundary rest (n + 1 - lenUtf8 c) = true := by
            revert hb
            split
            · intro hb; exact ⟨by assumption, hb⟩
            · intro hb; exact absurd hb (by simp)
          obtain ⟨hle, hb'⟩ := hcb
          simp only [charIndicesFrom, charIndexLoop]
          have h1 : ¬ (base = base + (n + 1)) := by omega
          have h2 : ¬ (base + (n + 1) < base) := by omega
          rw [if_neg h1, if_neg h2]
          have hlt' : n + 1 - lenUtf8 c < byteLen rest := by
            simp only [byteLen] at hlt
            omega
          have := ih (n + 1 - lenUtf8 c) (base + lenUtf8 c) (ci + 1) hlt' hb'
          have harith : base + lenUtf8 c + (n + 1 - lenUtf8 c) = base + (n + 1) := by omega
          rw [harith] at this
          rw [this]
          have htake : takeBytes (c :: rest) (n + 1) =
              c :: takeBytes rest (n + 1 - lenUtf8 c) := by
            simp only [takeBytes]
            rw [if_pos hle]
          rw [htake]
          simp only [List.length_cons, Option.some.injEq]
          omega

theorem char_byte_offset_to_char_index_boundary {t : List Char} {o : Nat}
    (hb : isCharBoundary t o = true) :
    char_byte_offset_to_char_index t o = some ((takeBytes t o).length) := by
  have hle := isCharBoundary_le hb
  by_cases he : o = byteLen t
  · subst he
    unfold char_byte_offset_to_char_index
    rw [if_neg (by omega), if_pos rfl, takeBytes_byteLen]
  · have hlt : o < byteLen t := by omega
    unfold char_byte_offset_to_char_index
    rw [if_neg (by omega), if_neg he]
    have := charIndexLoop_boundary t o 0 0 hlt hb
    rw [Nat.zero_add] at this
    simpa [charIndices] using this

/-- **C9** — corrected.  Whenever `from_byte_offset` succeeds at a
character-boundary offset `o`, the resulting cursor's `char_index` equals the
number of Unicode scalar values in the prefix `T[..o]`; and `from_byte_offset`
always succeeds at offset 0 and at offset `len(T)`.  (The claim's stronger
statement — success at *every* boundary offset — fails for boundary offsets
pointing at a trailing line terminator, see the counterexample.) -/
theorem C9_from_byte_offset_char_index (t : List Char) (o : Nat) :
    (∀ bc : ByteCursor, isCharBoundary t o = true →
        ByteCursor.from_byte_offset o t = some bc →
        bc.char_index t = some ((takeBytes t o).length)) ∧
      (ByteCursor.from_byte_offset 0 t).isSome = true ∧
      (ByteCursor.from_byte_offset (byteLen t) t).isSome = true := by
  refine ⟨?_, ?_, ?_⟩
  · intro bc hb hsome
    have hoff : bc.byte_character_start = o := from_byte_offset_byte hsome
    unfold ByteCursor.char_index
    rw [hoff]
    exact char_byte_offset_to_char_index_boundary hb
  · simp [ByteCursor.from_byte_offset, ByteCursor.update_byte_offset,
      ByteCursor.string_start]
  · by_cases h0 : byteLen t = 0
    · simp [ByteCursor.from_byte_offset, ByteCursor.update_byte_offset,
        ByteCursor.string_start, h0]
    · have hupd : ByteCursor.string_start.update_byte_offset (byteLen t) t =
          (true, ⟨⟨(lastLineInfo (linesOf t) 0 (0, 0)).1,
            (lastLineInfo (linesOf t) 0 (0, 0)).2, .before⟩, byteLen t⟩) := by
        simp only [ByteCursor.update_byte_offset, ByteCursor.string_start]
        rw [if_neg (by omega)]
        unfold char_byte_offset_to_cursor
        rw [if_pos rfl]
      simp [ByteCursor.from_byte_offset, hupd]

/-- **C9** — counterexample to the claim as stated: offset 1 in `"a\n"` is a
character boundary (it points at the trailing `'\n'`), yet `from_byte_offset`
returns `None`. -/
theorem C9_counterexample :
    isCharBoundary ['a', '\n'] 1 = true ∧
      ByteCursor.from_byte_offset 1 ['a', '\n'] = none := by
  refine ⟨by decide, by decide⟩

/-- **C9** — witness: the amended statement at a concrete input. -/
theorem C9_witness :
    (ByteCursor.from_byte_offset 1 ['a', 'b'] = some ⟨⟨0, 1, .before⟩, 1⟩) ∧
      (⟨⟨0, 1, .before⟩, 1⟩ : ByteCursor).char_index ['a', 'b'] = some 1 :=
  ⟨by decide,
    (C9_from_byte_offset_char_index ['a', 'b'] 1).1 ⟨⟨0, 1, .before⟩, 1⟩
      (by decide) (by decide)⟩

/-! ### `src/text_params.rs` (text-content part) -/

/-- The text-content fields of `TextParams`.  The geometry fields (size,
style, scale, metadata) play no role in the claims about text and cursor
state and are handled by the separate scroll model below. -/
structure TextParamsM where
  text : List Char
  changed : Bool
  line_terminator_has_been_added : Bool
deriving DecidableEq, Repr

namespace TextParamsM

/-- `TextParams::original_text`: drop the last byte when the synthetic
terminator flag is set (`&text[..len - 1]`, saturating). -/
def original_text (p : TextParamsM) : List Char :=
  if p.line_terminator_has_been_added then
    takeBytes p.text (byteLen p.text - 1)
  else p.text

/-- `TextParams::text_for_internal_use`. -/
def text_for_internal_use (p : TextParamsM) : List Char := p.text

/-- `TextParams::set_text`.  The source computes
`ends_with_line_terminator = !text.ends_with('\n')` — the negation is kept
exactly as written. -/
def set_text (p : TextParamsM) (t : List Char) : TextParamsM :=
  if p.original_text = t then p
  else
    let text := t
    let is_one_line := ¬ text.contains '\n'
    let ends_with_line_terminator := ¬ (text.getLast? = some '\n')
    if ¬ is_one_line ∧ ¬ ends_with_line_terminator then
      { text := text ++ ['\n'], changed := true, line_terminator_has_been_added := true }
    else
      { text := text, changed := true, line_terminator_has_been_added := false }

/-- `TextParams::new` (text-content part): starts from empty text with
`changed = true`, then runs `set_text`. -/
def new (t : List Char) : TextParamsM :=
  set_text { text := [], changed := true, line_terminator_has_been_added := false } t

/-- `TextParams::insert_char(index, c)`. -/
def insert_char (p : TextParamsM) (index : Nat) (c : Char) : TextParamsM :=
  if index ≤ byteLen p.text then
    { p with text := takeBytes p.text index ++ [c] ++ dropBytes p.text index,
             changed := true }
  else p

/-- `TextParams::insert_str(index, s)`. -/
def insert_str (p : TextParamsM) (index : Nat) (s : List Char) : TextParamsM :=
  if index ≤ byteLen p.text then
    { p with text := takeBytes p.text index ++ s ++ dropBytes p.text index,
             changed := true }
  else p

/-- `TextParams::remove_char(index)`: removes the char starting at byte
`index`, returning it. -/
def remove_char (p : TextParamsM) (index : Nat) : Option Char × TextParamsM :=
  if index < byteLen p.text then
    match dropBytes p.text index with
    | [] => (none, p)
    | c :: rest =>
        (some c, { p with text := takeBytes p.text index ++ rest, changed := true })
  else (none, p)

/-- `TextParams::remove_range(start, end)`. -/
def remove_range (p : TextParamsM) (s e : Nat) : TextParamsM :=
  if s < e ∧ e ≤ byteLen p.text then
    { p with text := takeBytes p.text s ++ dropBytes p.text e, changed := true }
  else p

/-- `TextParams::reset_changed`. -/
def reset_changed (p : TextParamsM) : TextParamsM := { p with changed := false }

end TextParamsM

/-- **C6** — code bug.  For the non-empty multi-line input `"a\nb"` (which
does not end with a newline) `set_text` stores the text *unchanged* — no
trailing line terminator is appended and the flag stays `false` — because the
source's `ends_with_line_terminator` variable is assigned the *negation* of
`text.ends_with('\n')`, so the append branch fires only when the text already
ends with a newline.  The stored text therefore does not end with a line
terminator, contradicting the claimed invariant (only `original_text`'s
round-trip holds). -/
theorem C6_set_text_terminator_bug :
    (TextParamsM.new ['a', '\n', 'b']).text = ['a', '\n', 'b'] ∧
      (TextParamsM.new ['a', '\n', 'b']).line_terminator_has_been_added = false ∧
      (TextParamsM.new ['a', '\n', 'b']).text.getLast? ≠ some '\n' ∧
      (TextParamsM.new ['a', '\n', 'b']).original_text = ['a', '\n', 'b'] ∧
      (TextParamsM.new ['a', '\n', '\n']).text = ['a', '\n', '\n', '\n'] := by
  refine ⟨by decide, by decide, by decide, by decide, by decide⟩

/-! ### `src/action.rs` and the `TextState` action machine of `src/state.rs` -/

/-- `Action` (payload strings as char lists). -/
inductive Action
  | paste (s : List Char)
  | cut
  | copySelectedText
  | selectAll
  | deleteBackward
  | insertWhitespace
  | moveCursorRight
  | moveCursorLeft
  | moveCursorDown
  | moveCursorUp
  | insertChar (s : List Char)
deriving DecidableEq, Repr

/-- `ActionResult`. -/
inductive ActionResult
  | none
  | cursorUpdated
  | textChanged
  | insertToClipboard (s : List Char)
  | actionsDisabled
deriving DecidableEq, Repr

/-- `ActionResult::is_none`. -/
def ActionResult.is_none : ActionResult → Bool
  | .none => true
  | _ => false

/-- The cosmic-text `Motion`s used by the state machine. -/
inductive Motion
  | next
  | right
  | left
  | up
  | down
deriving DecidableEq, Repr

/-- The external shaping engine's cursor-motion primitive
(`Editor::action(Motion)` followed by `Editor::cursor()`), abstracted as a
function of the buffer text, the current cursor and the motion. -/
def Engine : Type := List Char → Cursor → Motion → Cursor

/-- The state components of `TextState` that the action machine reads and
writes.  Scroll, caret pixel position and the visual selection lines are
geometry produced by the shaping engine and are modelled separately (see the
scroll model below); `recalculate` does not touch the fields here except for
resetting the `changed` flag via `reshape_if_params_changed`. -/
structure TextStateM where
  params : TextParamsM
  cursor : ByteCursor
  selOrigin : Option ByteCursor
  selEnd : Option ByteCursor
  is_selectable : Bool
  is_editable : Bool
  are_actions_enabled : Bool
deriving DecidableEq, Repr

namespace TextStateM

/-- `TextState::is_text_selected`. -/
def is_text_selected (s : TextStateM) : Bool :=
  match s.selOrigin, s.selEnd with
  | some o, some e => o ≠ e
  | _, _ => false

/-- `TextState::reset_selection` (the visual lines are geometry, not
modelled). -/
def reset_selection (s : TextStateM) : TextStateM :=
  { s with selOrigin := none, selEnd := none }

/-- `TextState::reset_selection_end`. -/
def reset_selection_end (s : TextStateM) : TextStateM :=
  { s with selEnd := none }

/-- Substring of `original_text` between two byte offsets
(`TextState::substring_byte_offset`; the source slices unchecked). -/
def substring_byte_offset (s : TextStateM) (a b : Nat) : List Char :=
  takeBytes (dropBytes s.params.original_text a) (b - a)

/-- `TextState::selected_text`. -/
def selected_text (s : TextStateM) : Option (List Char) :=
  match s.selOrigin, s.selEnd with
  | some o, some e =>
      if ByteCursor.lt e o then
        some (s.substring_byte_offset e.byte_character_start o.byte_character_start)
      else
        some (s.substring_byte_offset o.byte_character_start e.byte_character_start)
  | _, _ => none

/-- Effect of `recalculate_with_update_reason` on the modelled fields:
`reshape_if_params_changed` clears the `changed` flag; scroll adjustment,
selection-area recomputation and caret positioning touch only geometry. -/
def recalc (s : TextStateM) : TextStateM :=
  { s with params := s.params.reset_changed }

/-- `TextState::move_cursor`: run the engine's motion, then
`update_cursor_before_glyph_with_cursor` (which validates against the text
and keeps the old cursor on failure); the result is `None` when the cursor
did not change. -/
def move_cursor (eng : Engine) (s : TextStateM) (m : Motion) : TextStateM × ActionResult :=
  let old := s.cursor.cursor
  let newC := eng s.params.text_for_internal_use old m
  let upd := s.cursor.update_cursor newC s.params.text_for_internal_use
  let s1 := { s with cursor := upd.2 }
  if s1.cursor.cursor = old then (s1, .none) else (s1, .cursorUpdated)

/-- `TextState::insert_char_at_cursor`. -/
def insert_char_at_cursor (eng : Engine) (s : TextStateM) (c : Char) :
    TextStateM × ActionResult :=
  let s1 := { s with params := s.params.insert_char s.cursor.byte_character_start c }
  let s2 := recalc s1
  let s3 := (move_cursor eng s2 .next).1
  (s3, .textChanged)

/-- `TextState::remove_char_at_cursor`. -/
def remove_char_at_cursor (s : TextStateM) : TextStateM :=
  if s.params.text_for_internal_use ≠ [] then
    match s.cursor.prev_char_byte_offset s.params.text_for_internal_use with
    | some prev =>
        let s1 := { s with params := (s.params.remove_char prev).2 }
        let upd := s1.cursor.update_byte_offset prev s1.params.text_for_internal_use
        { s1 with cursor := upd.2 }
    | none => s
  else s

/-- `TextState::remove_selected_text`. -/
def remove_selected_text (s : TextStateM) : TextStateM :=
  match s.selOrigin, s.selEnd with
  | some origin, some e =>
      let s1 :=
        if ByteCursor.lt e origin then
          { s with params := s.params.remove_range e.byte_character_start
                      origin.byte_character_start,
                   cursor := e }
        else
          { s with params := s.params.remove_range origin.byte_character_start
                      e.byte_character_start,
                   cursor := origin }
      s1.reset_selection
  | _, _ => s

/-- `TextState::move_cursor_to_selection_left`. -/
def move_cursor_to_selection_left (s : TextStateM) : TextStateM :=
  match s.selOrigin, s.selEnd with
  | some origin, some e =>
      if ByteCursor.lt e origin then { s with cursor := e } else { s with cursor := origin }
  | _, _ => s

/-- `TextState::move_cursor_to_selection_right`. -/
def move_cursor_to_selection_right (s : TextStateM) : TextStateM :=
  match s.selOrigin, s.selEnd with
  | some origin, some e =>
      if ByteCursor.lt origin e then { s with cursor := e } else { s with cursor := origin }
  | _, _ => s

/-- `TextState::select_all` (built from `original_text`). -/
def select_all (s : TextStateM) : TextStateM :=
  let s1 := { s with selOrigin := some ByteCursor.string_start }
  if s1.params.original_text ≠ [] then
    { s1 with selEnd := some (ByteCursor.after_last_character s1.params.original_text) }
  else
    { s1 with selEnd := none }

/-- `TextState::copy_selected_text`. -/
def copy_selected_text (s : TextStateM) : TextStateM × ActionResult :=
  (s, .insertToClipboard ((s.selected_text).getD []))

/-- `TextState::paste_text_at_cursor`. -/
def paste_text_at_cursor (s : TextStateM) (t : List Char) : TextStateM × ActionResult :=
  let s1 := if t ≠ [] then s.reset_selection_end else s
  let s2 := { s1 with params := s1.params.insert_str s1.cursor.byte_character_start t }
  (recalc s2, .textChanged)

/-- `TextState::select_all_recalculate`. -/
def select_all_recalculate (s : TextStateM) : TextStateM × ActionResult :=
  (recalc s.select_all, .cursorUpdated)

/-- `TextState::cut_selected_text`. -/
def cut_selected_text (s : TextStateM) : TextStateM × ActionResult :=
  let txt := (s.selected_text).getD []
  let s1 := s.remove_selected_text
  (recalc s1, .insertToClipboard txt)

/-- `TextState::delete_selected_text_or_text_before_cursor`. -/
def delete_selected_text_or_text_before_cursor (s : TextStateM) :
    TextStateM × ActionResult :=
  let s1 := if s.is_text_selected then s.remove_selected_text else s.remove_char_at_cursor
  (recalc s1, .textChanged)

/-- `TextState::move_cursor_right_recalculate`. -/
def move_cursor_right_recalculate (eng : Engine) (s : TextStateM) :
    TextStateM × ActionResult :=
  let s1 := if s.is_text_selected then s.move_cursor_to_selection_right
            else (move_cursor eng s .right).1
  (recalc s1.reset_selection, .cursorUpdated)

/-- `TextState::move_cursor_left_recalculate`. -/
def move_cursor_left_recalculate (eng : Engine) (s : TextStateM) :
    TextStateM × ActionResult :=
  let s1 := if s.is_text_selected then s.move_cursor_to_selection_left
            else (move_cursor eng s .left).1
  (recalc s1.reset_selection, .cursorUpdated)

/-- `TextState::move_cursor_recalculate` (used for up/down). -/
def move_cursor_recalculate (eng : Engine) (s : TextStateM) (m : Motion) :
    TextStateM × ActionResult :=
  let r := move_cursor eng s m
  (recalc r.1.reset_selection, r.2)

/-- `TextState::insert_character` (the `InsertChar` handler). -/
def insert_character (eng : Engine) (s : TextStateM) (frag : List Char) :
    TextStateM × ActionResult :=
  let s1 := if s.is_text_selected then
              ((move_cursor eng s .left).1).remove_selected_text
            else s
  let s2 := frag.foldl (fun st c => ((insert_char_at_cursor eng st c).1).reset_selection_end) s1
  (recalc s2, .textChanged)

/-- The editable branch of `apply_action` (the inner `match` run when
`is_editable`). -/
def editable_branch (eng : Engine) (s : TextStateM) (a : Action) :
    TextStateM × ActionResult :=
  match a with
  | .paste t => s.paste_text_at_cursor t
  | .cut => s.cut_selected_text
  | .deleteBackward => s.delete_selected_text_or_text_before_cursor
  | .moveCursorRight => move_cursor_right_recalculate eng s
  | .moveCursorLeft => move_cursor_left_recalculate eng s
  | .moveCursorUp => move_cursor_recalculate eng s .up
  | .moveCursorDown => move_cursor_recalculate eng s .down
  | .insertChar c => insert_character eng s c
  | _ => (s, .none)

/-- `TextState::apply_action`. -/
def apply_action (eng : Engine) (s : TextStateM) (a : Action) :
    TextStateM × ActionResult :=
  if ¬ s.are_actions_enabled then (s, .actionsDisabled)
  else if s.is_selectable then
    let r := if s.is_editable then editable_branch eng s a else (s, .none)
    if r.2.is_none then
      match a with
      | .copySelectedText => r.1.copy_selected_text
      | .selectAll => r.1.select_all_recalculate
      | _ => (r.1, .none)
    else r
  else (s, .none)

/-- Fold a sequence of actions through `apply_action`. -/
def run_actions (eng : Engine) (s : TextStateM) (l : List Action) : TextStateM :=
  l.foldl (fun st a => (apply_action eng st a).1) s

end TextStateM

/-- The actions handled by the editable branch of `apply_action`. -/
def editable_handled : Action → Bool
  | .paste _ => true
  | .cut => true
  | .deleteBackward => true
  | .moveCursorRight => true
  | .moveCursorLeft => true
  | .moveCursorUp => true
  | .moveCursorDown => true
  | .insertChar _ => true
  | _ => false

theorem fallback_id (r : TextStateM × ActionResult) :
    (if r.2.is_none then (r.1, ActionResult.none) else r) = r := by
  cases r with
  | mk s1 res => cases res <;> simp [ActionResult.is_none]

/-- **C2** — confirmed.  The gating order of `apply_action`: disabled actions
always answer `ActionsDisabled`; a non-selectable state answers `None` to
everything; with selectability and editability the eight editing actions are
dispatched to the editable branch; and `CopySelectedText` / `SelectAll` are
answered whenever the editable branch produced `None` (in particular whenever
the state is merely selectable), requiring only selectability. -/
theorem C2_apply_action_gating (eng : Engine) (s : TextStateM) (a : Action) :
    (s.are_actions_enabled = false →
       s.apply_action eng a = (s, .actionsDisabled)) ∧
      (s.are_actions_enabled = true → s.is_selectable = false →
        s.apply_action eng a = (s, .none)) ∧
      (s.are_actions_enabled = true → s.is_selectable = true →
        s.is_editable = true → editable_handled a = true →
        s.apply_action eng a = TextStateM.editable_branch eng s a) ∧
      (s.are_actions_enabled = true → s.is_selectable = true →
        s.apply_action eng .copySelectedText = s.copy_selected_text ∧
          s.apply_action eng .selectAll = s.select_all_recalculate) := by
  refine ⟨?_, ?_, ?_, ?_⟩
  · intro h
    simp [TextStateM.apply_action, h]
  · intro h1 h2
    simp [TextStateM.apply_action, h1, h2]
  · intro h1 h2 h3 hh
    cases a <;>
      simp_all [TextStateM.apply_action, editable_handled, fallback_id]
  · intro h1 h2
    cases h3 : s.is_editable <;>
      constructor <;>
        simp [TextStateM.apply_action, TextStateM.editable_branch, h1, h2, h3,
          ActionResult.is_none]

/-- **C2** — witness: a state with actions disabled answers
`ActionsDisabled` to `Cut`. -/
theorem C2_witness :
    TextStateM.apply_action (fun _ c _ => c)
        { params := TextParamsM.new [], cursor := ByteCursor.string_start,
          selOrigin := none, selEnd := none, is_selectable := false,
          is_editable := false, are_actions_enabled := false } .cut =
      ({ params := TextParamsM.new [], cursor := ByteCursor.string_start,
          selOrigin := none, selEnd := none, is_selectable := false,
          is_editable := false, are_actions_enabled := false }, .actionsDisabled) :=
  (C2_apply_action_gating (fun _ c _ => c) _ .cut).1 rfl

/-- An engine oracle that never moves the cursor. -/
def eng_id : Engine := fun _ c _ => c

/-- An editable state over empty text with the caret at the start. -/
def c7_state : TextStateM :=
  { params := TextParamsM.new [], cursor := ByteCursor.string_start,
    selOrigin := none, selEnd := none, is_selectable := true,
    is_editable := true, are_actions_enabled := true }

/-- **C7** — corrected.  For an editable state, `MoveCursorRight`/`Left`
collapses an active selection to its right/left edge instead of moving,
otherwise moves through the engine's motion primitive; the selection is
cleared either way; and the result is *always* `CursorUpdated` — the source
discards `move_cursor`'s result, so `None` is never returned even when the
cursor did not move (see the counterexample). -/
theorem C7_move_cursor_right_left (eng : Engine) (s : TextStateM)
    (h1 : s.are_actions_enabled = true) (h2 : s.is_selectable = true)
    (h3 : s.is_editable = true) :
    ((s.apply_action eng .moveCursorRight).2 = .cursorUpdated ∧
       (s.apply_action eng .moveCursorRight).1.selOrigin = none ∧
       (s.apply_action eng .moveCursorRight).1.selEnd = none ∧
       (s.apply_action eng .moveCursorRight).1.cursor =
         (if s.is_text_selected then s.move_cursor_to_selection_right.cursor
          else ((TextStateM.move_cursor eng s .right).1).cursor)) ∧
      ((s.apply_action eng .moveCursorLeft).2 = .cursorUpdated ∧
        (s.apply_action eng .moveCursorLeft).1.selOrigin = none ∧
        (s.apply_action eng .moveCursorLeft).1.selEnd = none ∧
        (s.apply_action eng .moveCursorLeft).1.cursor =
          (if s.is_text_selected then s.move_cursor_to_selection_left.cursor
           else ((TextStateM.move_cursor eng s .left).1).cursor)) := by
  have hr : s.apply_action eng .moveCursorRight =
      TextStateM.move_cursor_right_recalculate eng s := by
    simp [TextStateM.apply_action, h1, h2, h3, TextStateM.editable_branch,
      TextStateM.move_cursor_right_recalculate, ActionResult.is_none]
  have hl : s.apply_action eng .moveCursorLeft =
      TextStateM.move_cursor_left_recalculate eng s := by
    simp [TextStateM.apply_action, h1, h2, h3, TextStateM.editable_branch,
      TextStateM.move_cursor_left_recalculate, ActionResult.is_none]
  rw [hr, hl]
  cases hsel : s.is_text_selected <;>
    simp [TextStateM.move_cursor_right_recalculate,
      TextStateM.move_cursor_left_recalculate, TextStateM.recalc,
      TextStateM.reset_selection, hsel]

/-- **C7** — counterexample to the claim as stated: on empty text with the
engine reporting no movement, `MoveCursorRight` still answers
`CursorUpdated`, where the claim demands `None` for a cursor that did not
move. -/
theorem C7_counterexample :
    (c7_state.apply_action eng_id .moveCursorRight).2 = .cursorUpdated ∧
      (c7_state.apply_action eng_id .moveCursorRight).1.cursor = c7_state.cursor ∧
      ActionResult.cursorUpdated ≠ ActionResult.none := by
  refine ⟨by decide, by decide, by decide⟩

/-- **C7** — witness: the amended statement at a concrete state. -/
theorem C7_witness :
    ((c7_state.apply_action eng_id .moveCursorRight).2 = .cursorUpdated ∧
       (c7_state.apply_action eng_id .moveCursorRight).1.selOrigin = none ∧
       (c7_state.apply_action eng_id .moveCursorRight).1.selEnd = none ∧
       (c7_state.apply_action eng_id .moveCursorRight).1.cursor =
         (if c7_state.is_text_selected then
            c7_state.move_cursor_to_selection_right.cursor
          else ((TextStateM.move_cursor eng_id c7_state .right).1).cursor)) ∧
      ((c7_state.apply_action eng_id .moveCursorLeft).2 = .cursorUpdated ∧
        (c7_state.apply_action eng_id .moveCursorLeft).1.selOrigin = none ∧
        (c7_state.apply_action eng_id .moveCursorLeft).1.selEnd = none ∧
        (c7_state.apply_action eng_id .moveCursorLeft).1.cursor =
          (if c7_state.is_text_selected then
             c7_state.move_cursor_to_selection_left.cursor
           else ((TextStateM.move_cursor eng_id c7_state .left).1).cursor)) :=
  C7_move_cursor_right_left eng_id c7_state rfl rfl rfl

/-- **C10** — confirmed.  With actions enabled on a selectable, editable
state without an active selection, `Paste(s)` for non-empty `s` inserts `s`
at the caret's byte offset, reports `TextChanged`, and leaves the caret's
byte cursor unchanged — the caret does not advance past the pasted text. -/
theorem C10_paste_keeps_cursor (eng : Engine) (s : TextStateM) (t : List Char)
    (h1 : s.are_actions_enabled = true) (h2 : s.is_selectable = true)
    (h3 : s.is_editable = true) (_hsel : s.is_text_selected = false)
    (ht : t ≠ [])
    (hoff : s.cursor.byte_character_start ≤ byteLen s.params.text) :
    (s.apply_action eng (.paste t)).2 = .textChanged ∧
      (s.apply_action eng (.paste t)).1.cursor = s.cursor ∧
      (s.apply_action eng (.paste t)).1.params.text =
        takeBytes s.params.text s.cursor.byte_character_start ++ t ++
          dropBytes s.params.text s.cursor.byte_character_start := by
  have ha : s.apply_action eng (.paste t) = s.paste_text_at_cursor t := by
    simp [TextStateM.apply_action, h1, h2, h3, TextStateM.editable_branch,
      TextStateM.paste_text_at_cursor, ActionResult.is_none]
  rw [ha]
  simp [TextStateM.paste_text_at_cursor, TextStateM.reset_selection_end,
    TextStateM.recalc, TextParamsM.insert_str, TextParamsM.reset_changed, ht, hoff]

/-- **C10** — witness: pasting `"x"` into `"ab"` at caret offset 1. -/
theorem C10_witness :
    (TextStateM.apply_action eng_id
        { params := TextParamsM.new ['a', 'b'],
          cursor := ⟨⟨0, 1, .before⟩, 1⟩, selOrigin := none, selEnd := none,
          is_selectable := true, is_editable := true,
          are_actions_enabled := true } (.paste ['x'])).1.params.text =
      ['a', 'x', 'b'] := by
  have h := C10_paste_keeps_cursor eng_id
    { params := TextParamsM.new ['a', 'b'],
      cursor := ⟨⟨0, 1, .before⟩, 1⟩, selOrigin := none, selEnd := none,
      is_selectable := true, is_editable := true, are_actions_enabled := true }
    ['x'] rfl rfl rfl (by decide) (by decide) (by decide)
  rw [h.2.2]
  decide

/-- The editable state used for the C3 evaluation: text `"é"`, caret after
the last character (byte offset 2 — a valid boundary of the 2-byte text). -/
def c3_state : TextStateM :=
  { params := TextParamsM.new ['é'],
    cursor := ByteCursor.after_last_character ['é'],
    selOrigin := none, selEnd := none, is_selectable := true,
    is_editable := true, are_actions_enabled := true }

/-- The state after `Paste("\n")` followed by `DeleteBackward`. -/
def c3_result : TextStateM :=
  TextStateM.run_actions eng_id c3_state [.paste ['\n'], .deleteBackward]

/-- **C3** — code bug.  Starting from the valid state `c3_state` (caret byte
offset 2 on the 2-byte text `"é"`), the sequence `Paste("\n")`,
`DeleteBackward` leaves the text `"\n"` (1 byte) with the caret still at byte
offset 2: deleting `'é'` at offset 0 makes
`char_byte_offset_to_cursor("\n", 0)` fail (offset 0 of `"\n"` is inside no
`lines()` line), `update_byte_offset` fails closed, and the stale caret now
exceeds the text length — the claimed invariant is violated. -/
theorem C3_caret_invariant_violated :
    (c3_state.cursor.byte_character_start ≤ byteLen c3_state.params.text ∧
       isCharBoundary c3_state.params.text c3_state.cursor.byte_character_start = true) ∧
      c3_result.params.text = ['\n'] ∧
      c3_result.cursor.byte_character_start = 2 ∧
      ¬ (c3_result.cursor.byte_character_start ≤ byteLen c3_result.params.text) := by
  refine ⟨⟨by decide, by decide⟩, by decide, by decide, by decide⟩

/-! ### Horizontal scroll adjustment (`TextState::adjust_scroll_if_cursor_moved`) -/

/-- `UpdateReason`. -/
inductive UpdateReason
  | insertedText
  | moveCaret
  | deletedTextAtCursor
  | selectionChanged
  | unknown
deriving DecidableEq, Repr

/-- `UpdateReason::is_move_caret`. -/
def UpdateReason.is_move_caret : UpdateReason → Bool
  | .moveCaret => true
  | _ => false

/-- `UpdateReason::is_cursor_updated`. -/
def UpdateReason.is_cursor_updated : UpdateReason → Bool
  | .moveCaret => true
  | .insertedText => true
  | .deletedTextAtCursor => true
  | _ => false

/-- The inputs of `adjust_scroll_if_cursor_moved` that feed the horizontal
computation.  `f32` values are modelled as exact rationals; `outer_size().x`
and the local `text_area_size.x` both read `params.size().x` and are one
field. -/
structure ScrollEnv where
  /-- `params.size().x` (also `outer_size().x`). -/
  text_area_width : ℚ
  /-- `buffer.scroll().horizontal` before the call. -/
  old_scroll_horizontal : ℚ
  /-- `relative_caret_position.map(|p| p.x)` (`map_or(0.0, …)` applies). -/
  old_relative_caret_x : Option ℚ
  /-- x of `adjust_vertical_scroll_to_make_caret_visible`'s result; `none`
  models the `?` early return (caret not resolvable). -/
  caret_x : Option ℚ
  /-- `self.caret_width`. -/
  caret_width : ℚ
  /-- `inner_size().x` after reshaping. -/
  inner_width : ℚ

/-- The new horizontal scroll computed by `adjust_scroll_if_cursor_moved`
(the vertical part lives in the shaping adapter and is not claimed). -/
def adjust_scroll_if_cursor_moved (r : UpdateReason) (e : ScrollEnv) : ℚ :=
  if r.is_cursor_updated then
    match e.caret_x with
    | none => e.old_scroll_horizontal
    | some cx =>
        let old_relative := e.old_relative_caret_x.getD 0
        let old_absolute_caret_x := old_relative + e.old_scroll_horizontal
        let winLo := e.old_scroll_horizontal
        let winHi := e.old_scroll_horizontal + e.text_area_width
        if winLo ≤ cx ∧ cx ≤ winHi then
          if ¬ r.is_move_caret then
            let text_shift := old_absolute_caret_x - cx
            if 0 < text_shift then
              let ns := max (e.old_scroll_horizontal - text_shift) 0
              if e.text_area_width < e.inner_width then
                min ns (e.inner_width - e.text_area_width + e.caret_width)
              else 0
            else e.old_scroll_horizontal
          else e.old_scroll_horizontal
        else if winHi < cx then cx - e.text_area_width + e.caret_width
        else if cx < winLo then cx
        else if cx < 0 then 0
        else e.old_scroll_horizontal
  else e.old_scroll_horizontal

/-- **C1** — corrected.  For a cursor-affecting update reason with a resolved
caret position: when the caret's absolute x is beyond the right edge of the
old window the new scroll is `caret_x - visible_width + caret_width`, as
claimed; when it is left of the window the new scroll is `caret_x` *without*
clamping — the `< 0.0` clamp branch of the source is unreachable (the
preceding `< min` branch already matched), so a negative `caret_x` produces a
negative scroll (see the counterexample). -/
theorem C1_scroll_follows_caret (r : UpdateReason) (e : ScrollEnv) (cx : ℚ)
    (hr : r.is_cursor_updated = true) (hc : e.caret_x = some cx)
    (hw : 0 ≤ e.text_area_width) :
    (e.old_scroll_horizontal + e.text_area_width < cx →
       adjust_scroll_if_cursor_moved r e =
         cx - e.text_area_width + e.caret_width) ∧
      (cx < e.old_scroll_horizontal →
        adjust_scroll_if_cursor_moved r e = cx) := by
  constructor
  · intro h
    unfold adjust_scroll_if_cursor_moved
    rw [hr, if_pos rfl, hc]
    simp only
    have hnv : ¬ (e.old_scroll_horizontal ≤ cx ∧
        cx ≤ e.old_scroll_horizontal + e.text_area_width) := by
      intro hv
      linarith [hv.2]
    rw [if_neg hnv, if_pos h]
  · intro h
    unfold adjust_scroll_if_cursor_moved
    rw [hr, if_pos rfl, hc]
    simp only
    have hnv : ¬ (e.old_scroll_horizontal ≤ cx ∧
        cx ≤ e.old_scroll_horizontal + e.text_area_width) := by
      intro hv
      linarith [hv.1]
    have hnr : ¬ (e.old_scroll_horizontal + e.text_area_width < cx) := by
      linarith
    rw [if_neg hnv, if_neg hnr, if_pos h]

/-- The concrete environment of the C1 counterexample: old scroll 0, visible
width 10, caret width 3, caret resolved at x = −5. -/
def c1_env : ScrollEnv :=
  { text_area_width := 10, old_scroll_horizontal := 0,
    old_relative_caret_x := some 0, caret_x := some (-5),
    caret_width := 3, inner_width := 0 }

/-- **C1** — counterexample to the claim as stated: with the caret at
absolute x = −5 left of the window `[0, 10]`, the new scroll is −5, not the
claimed clamp `max (−5) 0 = 0`. -/
theorem C1_counterexample :
    adjust_scroll_if_cursor_moved .insertedText c1_env = -5 ∧
      ¬ (0 ≤ adjust_scroll_if_cursor_moved .insertedText c1_env) := by
  constructor
  · norm_num [adjust_scroll_if_cursor_moved, c1_env, UpdateReason.is_cursor_updated,
      UpdateReason.is_move_caret]
  · norm_num [adjust_scroll_if_cursor_moved, c1_env, UpdateReason.is_cursor_updated,
      UpdateReason.is_move_caret]

/-- **C1** — witness: both amended branches at concrete inputs. -/
theorem C1_witness :
    adjust_scroll_if_cursor_moved .insertedText
        { text_area_width := 10, old_scroll_horizontal := 0,
          old_relative_caret_x := some 0, caret_x := some 20,
          caret_width := 3, inner_width := 0 } = 13 ∧
      adjust_scroll_if_cursor_moved .insertedText c1_env = -5 := by
  constructor
  · have h := (C1_scroll_follows_caret .insertedText
      { text_area_width := 10, old_scroll_horizontal := 0,
        old_relative_caret_x := some 0, caret_x := some 20,
        caret_width := 3, inner_width := 0 } 20 rfl rfl (by norm_num)).1 (by norm_num)
    rw [h]
    norm_num
  · have h := (C1_scroll_follows_caret .insertedText c1_env (-5) rfl rfl
      (by norm_num [c1_env])).2 (by norm_num [c1_env])
    rw [h]

/-! ### `src/buffer_cache.rs` — frame-based mark-and-sweep eviction -/

/-- `BufferCache`: the id → buffer map as an association list (first match
wins, inserts replace), the accessed set as a list.  Ids are `Nat`
(`Id` wraps a hash); buffers are an opaque parameter. -/
structure BufferCacheM (β : Type) where
  buffer_cache : List (Nat × β)
  buffers_accessed_last_frame : List Nat
deriving Repr

/-- Key membership in the association list (`HashMap::contains_key`). -/
def mapHasKey {β : Type} (m : List (Nat × β)) (id : Nat) : Bool :=
  m.any (fun p => p.1 == id)

/-- `HashMap::insert`: replace any existing binding. -/
def mapInsert {β : Type} (m : List (Nat × β)) (id : Nat) (b : β) : List (Nat × β) :=
  (id, b) :: m.filter (fun p => !(p.1 == id))

namespace BufferCacheM

/-- `BufferCache::start_frame`: clear the accessed set. -/
def start_frame {β : Type} (c : BufferCacheM β) : BufferCacheM β :=
  { c with buffers_accessed_last_frame := [] }

/-- `BufferCache::end_frame`: retain exactly the entries whose id is in the
accessed set. -/
def end_frame {β : Type} (c : BufferCacheM β) : BufferCacheM β :=
  { c with buffer_cache :=
      c.buffer_cache.filter (fun p => c.buffers_accessed_last_frame.contains p.1) }

/-- `BufferCache::buffer` (the retaining accessor): mark accessed, then look
up. -/
def buffer {β : Type} (c : BufferCacheM β) (id : Nat) :
    BufferCacheM β × Option β :=
  ({ c with buffers_accessed_last_frame := id :: c.buffers_accessed_last_frame },
    (c.buffer_cache.find? (fun p => p.1 == id)).map Prod.snd)

/-- `BufferCache::buffer_no_retain`: look up without marking. -/
def buffer_no_retain {β : Type} (c : BufferCacheM β) (id : Nat) : Option β :=
  (c.buffer_cache.find? (fun p => p.1 == id)).map Prod.snd

/-- `BufferCache::insert_buffer`: insert and mark accessed. -/
def insert_buffer {β : Type} (c : BufferCacheM β) (id : Nat) (b : β) :
    BufferCacheM β :=
  { c with buffer_cache := mapInsert c.buffer_cache id b,
           buffers_accessed_last_frame := id :: c.buffers_accessed_last_frame }

end BufferCacheM

/-- The cache operations performed during one frame. -/
inductive CacheOp (β : Type)
  | get (id : Nat)
  | getNoRetain (id : Nat)
  | insert (id : Nat) (b : β)

/-- Run one operation (lookup results are discarded; only the state
matters for eviction). -/
def runCacheOp {β : Type} (c : BufferCacheM β) : CacheOp β → BufferCacheM β
  | .get id => (c.buffer id).1
  | .getNoRetain _ => c
  | .insert id b => c.insert_buffer id b

/-- A whole frame: `start_frame`, the operations, `end_frame`. -/
def runFrame {β : Type} (c : BufferCacheM β) (ops : List (CacheOp β)) :
    BufferCacheM β :=
  BufferCacheM.end_frame (ops.foldl runCacheOp c.start_frame)

/-- Whether an operation retains `id` (a fetch through the retaining
accessor, or an insert — `insert_buffer` marks accessed). -/
def retainsId {β : Type} (id : Nat) : CacheOp β → Prop
  | .get j => j = id
  | .getNoRetain _ => False
  | .insert j _ => j = id

theorem mapHasKey_iff {β : Type} (m : List (Nat × β)) (id : Nat) :
    mapHasKey m id = true ↔ ∃ p ∈ m, p.1 = id := by
  simp [mapHasKey, List.any_eq_true]

theorem mapHasKey_runOp {β : Type} {c : BufferCacheM β} {id : Nat}
    (op : CacheOp β) (h : mapHasKey c.buffer_cache id = true) :
    mapHasKey (runCacheOp c op).buffer_cache id = true := by
  cases op with
  | get j => exact h
  | getNoRetain j => exact h
  | insert j b =>
      simp only [runCacheOp, BufferCacheM.insert_buffer]
      rw [mapHasKey_iff] at h ⊢
      obtain ⟨p, hp, hpe⟩ := h
      by_cases hj : j = id
      · exact ⟨(j, b), List.mem_cons_self _ _, hj⟩
      · refine ⟨p, List.mem_cons_of_mem _ ?_, hpe⟩
        rw [List.mem_filter]
        refine ⟨hp, ?_⟩
        simp [hpe, Ne.symm hj]

theorem mapHasKey_runOps {β : Type} {c : BufferCacheM β} {id : Nat}
    (ops : List (CacheOp β)) (h : mapHasKey c.buffer_cache id = true) :
    mapHasKey ((ops.foldl runCacheOp c).buffer_cache) id = true := by
  induction ops generalizing c with
  | nil => exact h
  | cons op rest ih => exact ih (mapHasKey_runOp op h)

theorem accessed_mono {β : Type} {c : BufferCacheM β} {id : Nat}
    (ops : List (CacheOp β)) (h : id ∈ c.buffers_accessed_last_frame) :
    id ∈ ((ops.foldl runCacheOp c).buffers_accessed_last_frame) := by
  induction ops generalizing c with
  | nil => exact h
  | cons op rest ih =>
      apply ih
      cases op with
      | get j => exact List.mem_cons_of_mem _ h
      | getNoRetain j => exact h
      | insert j b => exact List.mem_cons_of_mem _ h

theorem accessed_of_retaining_op {β : Type} {c : BufferCacheM β} {id : Nat}
    {ops : List (CacheOp β)} (op : CacheOp β) (hmem : op ∈ ops)
    (hret : retainsId id op) :
    id ∈ ((ops.foldl runCacheOp c).buffers_accessed_last_frame) := by
  induction ops generalizing c with
  | nil => simp at hmem
  | cons o rest ih =>
      rcases List.mem_cons.mp hmem with h1 | h2
      · subst h1
        cases op with
        | get j =>
            cases hret
            exact accessed_mono rest (List.mem_cons_self _ _)
        | getNoRetain j => cases hret
        | insert j b =>
            cases hret
            exact accessed_mono rest (List.mem_cons_self _ _)
      · exact ih h2

theorem accessed_only_retaining {β : Type} {c : BufferCacheM β} {id : Nat}
    (ops : List (CacheOp β)) (hno : ∀ op ∈ ops, ¬ retainsId id op)
    (h : id ∈ ((ops.foldl runCacheOp c).buffers_accessed_last_frame)) :
    id ∈ c.buffers_accessed_last_frame := by
  induction ops generalizing c with
  | nil => exact h
  | cons op rest ih =>
      have h1 := ih (fun o ho => hno o (List.mem_cons_of_mem _ ho)) h
      cases op with
      | get j =>
          rcases List.mem_cons.mp h1 with he | hm
          · exact absurd he.symm (by simpa [retainsId] using hno _ (List.mem_cons_self _ _))
          · exact hm
      | getNoRetain j => exact h1
      | insert j b =>
          rcases List.mem_cons.mp h1 with he | hm
          · exact absurd he.symm (by simpa [retainsId] using hno _ (List.mem_cons_self _ _))
          · exact hm

theorem mapHasKey_filter_accessed {β : Type} (m : List (Nat × β))
    (acc : List Nat) (id : Nat) :
    mapHasKey (m.filter (fun p => acc.contains p.1)) id = true ↔
      mapHasKey m id = true ∧ id ∈ acc := by
  simp only [mapHasKey_iff, List.mem_filter]
  constructor
  · rintro ⟨⟨pid, pb⟩, ⟨hm, hf⟩, he⟩
    subst he
    exact ⟨⟨(pid, pb), hm, rfl⟩, by simpa using hf⟩
  · rintro ⟨⟨⟨pid, pb⟩, hm, he⟩, hacc⟩
    subst he
    exact ⟨(pid, pb), ⟨hm, by simpa using hacc⟩, rfl⟩

/-- **C8** — confirmed.  Over a frame `start_frame; ops; end_frame` (with
`ops` drawn from the retaining accessor `buffer`, the non-retaining
`buffer_no_retain`, and `insert_buffer`): an entry present in the cache that
is fetched at least once through the retaining accessor survives
`end_frame`; an entry that nothing retained during the frame — neither a
retaining fetch nor an insert (so in particular one touched only through the
non-retaining accessor) — is removed.  (`insert_buffer` marks its id
accessed, matching the spec's "inserted on first use".) -/
theorem C8_frame_eviction {β : Type} (c : BufferCacheM β)
    (ops : List (CacheOp β)) (id : Nat) :
    (mapHasKey c.buffer_cache id = true → (CacheOp.get id : CacheOp β) ∈ ops →
       mapHasKey (runFrame c ops).buffer_cache id = true) ∧
      ((∀ op ∈ ops, ¬ retainsId id op) →
        mapHasKey (runFrame c ops).buffer_cache id = false) := by
  constructor
  · intro hpresent hget
    unfold runFrame BufferCacheM.end_frame
    rw [mapHasKey_filter_accessed]
    refine ⟨mapHasKey_runOps ops hpresent, ?_⟩
    exact accessed_of_retaining_op (CacheOp.get id) hget rfl
  · intro hno
    unfold runFrame BufferCacheM.end_frame
    rw [Bool.eq_false_iff]
    intro hcontra
    rw [mapHasKey_filter_accessed] at hcontra
    have := accessed_only_retaining ops hno hcontra.2
    simp [BufferCacheM.start_frame] at this

/-- **C8** — witness: a two-entry cache over one frame in which entry 1 is
fetched via the retaining accessor and entry 2 only via the non-retaining
one; `end_frame` keeps 1 and evicts 2. -/
theorem C8_witness :
    mapHasKey (runFrame
        (⟨[(1, 10), (2, 20)], []⟩ : BufferCacheM Nat)
        [.get 1, .getNoRetain 2]).buffer_cache 1 = true ∧
      mapHasKey (runFrame
        (⟨[(1, 10), (2, 20)], []⟩ : BufferCacheM Nat)
        [.get 1, .getNoRetain 2]).buffer_cache 2 = false :=
  ⟨(C8_frame_eviction (⟨[(1, 10), (2, 20)], []⟩ : BufferCacheM Nat)
      [.get 1, .getNoRetain 2] 1).1 (by decide) (by simp),
    (C8_frame_eviction (⟨[(1, 10), (2, 20)], []⟩ : BufferCacheM Nat)
      [.get 1, .getNoRetain 2] 2).2 (by
        intro op hop
        rcases List.mem_cons.mp hop with h1 | h2
        · subst h1; simp [retainsId]
        · rcases List.mem_cons.mp h2 with h3 | h4
          · subst h3; simp [retainsId]
          · simp at h4)⟩
